import Mathlib

/-!
A verification development for the `prom` package: fixed-precision
`prometheus`-style gauge/counter cells backed by an `int64` mutated with
atomic operations (`src/fixed_precision.go`).

Modelling conventions.

* `int64` values are `Int` together with explicit two's-complement
  wraparound `wrap64 : Int → Int` applied at every write, exactly where Go
  performs 64-bit arithmetic.  `uint64` values are `Nat` kept below `2^64`.

* `float64` values are modelled by `F64`: either NaN, a signed infinity, or
  a finite value represented by the exact rational it denotes.  The two
  IEEE-754 zeros are conflated into `.fin 0`; no operation modelled here
  distinguishes them.  Arithmetic on finite values is exact rational
  arithmetic followed by `roundQ`, IEEE-754 round-to-nearest-even into the
  binary64 grid (53-bit significands, exponent range down to subnormals at
  scale `2^(-1074)`, overflow to infinity at `2^1024`).

* Go's float-to-integer conversions truncate toward zero and are
  implementation-specific when the operand is NaN or out of range.  We model
  the amd64 behavior (`cvttsd2si`), which yields `-2^63` in those cases;
  this matches the platform the package's benchmarks target and is noted at
  each theorem whose statement depends on it.

* Panics are modelled with `Except String`: a panic is `.error msg` and no
  successor state exists, so state observed "after" a recovered panic is the
  unchanged prior state.
-/

set_option maxRecDepth 20000
set_option exponentiation.threshold 2500

unseal Rat.mul Rat.inv Rat.add Rat.sub Rat.ofScientific

deriving instance DecidableEq for Except

/-- Powers of two with integer exponent, computed through kernel-friendly
`Nat.pow` (Mathlib's `zpow` on `ℚ` does not evaluate well). -/
def qpow2 (s : Int) : ℚ :=
  if 0 ≤ s then ((2 ^ s.toNat : ℕ) : ℚ) else ((2 ^ (-s).toNat : ℕ) : ℚ)⁻¹

/-- Structurally recursive base-2 logarithm with explicit fuel. -/
def log2fuel : Nat → Nat → Nat
  | 0, _ => 0
  | fuel + 1, n => if n ≥ 2 then log2fuel fuel (n / 2) + 1 else 0

/-- Base-2 logarithm: for `n ≥ 1`, the unique `k` with `2^k ≤ n < 2^(k+1)`. -/
def nlog2 (n : Nat) : Nat := log2fuel n n

/-- For `0 < q`, the unique `e` with `2^e ≤ q < 2^(e+1)`. -/
def qlog2 (q : ℚ) : Int :=
  if qpow2 ((nlog2 q.num.natAbs : Int) - (nlog2 q.den : Int)) ≤ q then
    (nlog2 q.num.natAbs : Int) - (nlog2 q.den : Int)
  else
    (nlog2 q.num.natAbs : Int) - (nlog2 q.den : Int) - 1

/-- Round a rational to the nearest integer, ties to even. -/
def rne (q : ℚ) : Int :=
  if q - (⌊q⌋ : ℚ) < 1/2 then ⌊q⌋
  else if 1/2 < q - (⌊q⌋ : ℚ) then ⌊q⌋ + 1
  else if ⌊q⌋ % 2 = 0 then ⌊q⌋ else ⌊q⌋ + 1

/-- IEEE-754 binary64 values: NaN, infinities (`true` = negative), or a
finite value given by the exact rational it denotes. -/
inductive F64 where
  | nan : F64
  | inf : Bool → F64
  | fin : ℚ → F64
deriving DecidableEq

/-- The scale of one significand unit at magnitude `q`: `max (e - 52)
(-1074)` for normal values, floored at the subnormal scale. -/
def roundScale (q : ℚ) : Int := max (qlog2 q - 52) (-1074)

/-- The rounded significand count of a positive rational at its scale. -/
def roundSig (q : ℚ) : Int := rne (q / qpow2 (roundScale q))

/-- Round a positive rational into the binary64 grid: significand scale is
`roundScale` (normal/subnormal), round-to-nearest-even, overflow to `+∞` at
`2^1024`. -/
def roundPos (q : ℚ) : F64 :=
  if qpow2 1024 ≤ (roundSig q : ℚ) * qpow2 (roundScale q) then .inf false
  else .fin ((roundSig q : ℚ) * qpow2 (roundScale q))

/-- Negation of a binary64 value (sign-bit flip; exact, never rounds). -/
def F64.neg : F64 → F64
  | .nan => .nan
  | .inf b => .inf (!b)
  | .fin q => .fin (-q)

/-- Round an arbitrary rational to the nearest binary64 value. -/
def roundQ (q : ℚ) : F64 :=
  if 0 < q then roundPos q
  else if q < 0 then (roundPos (-q)).neg
  else .fin 0

/-- The `<` comparison on binary64 values (NaN compares false). -/
def F64.lt : F64 → F64 → Bool
  | .nan, _ => false
  | _, .nan => false
  | .inf b, .inf c => b && !c
  | .inf b, .fin _ => b
  | .fin _, .inf c => !c
  | .fin a, .fin b => decide (a < b)

/-- Binary64 multiplication: special cases per IEEE-754, finite case exact
product then round-to-nearest-even. -/
def F64.mul : F64 → F64 → F64
  | .nan, _ => .nan
  | _, .nan => .nan
  | .inf b, .inf c => .inf (xor b c)
  | .inf b, .fin q => if q = 0 then .nan else .inf (xor b (decide (q < 0)))
  | .fin q, .inf c => if q = 0 then .nan else .inf (xor (decide (q < 0)) c)
  | .fin a, .fin b => roundQ (a * b)

/-- Binary64 division (only the cases a finite program state can reach are
interesting here; NaN propagates, division by zero gives a signed infinity
or NaN at `0/0`). -/
def F64.div : F64 → F64 → F64
  | .nan, _ => .nan
  | _, .nan => .nan
  | .inf _, .inf _ => .nan
  | .inf b, .fin q => .inf (xor b (decide (q < 0)))
  | .fin _, .inf _ => .fin 0
  | .fin a, .fin b =>
    if b = 0 then (if a = 0 then .nan else .inf (decide (a < 0)))
    else roundQ (a / b)

/-- Binary64 subtraction: exact difference then round-to-nearest-even. -/
def F64.sub : F64 → F64 → F64
  | .nan, _ => .nan
  | _, .nan => .nan
  | .inf b, .inf c => if b = c then .nan else .inf b
  | .inf b, .fin _ => .inf b
  | .fin _, .inf c => .inf (!c)
  | .fin a, .fin b => roundQ (a - b)

/-- A binary64 model value is representable when it is a fixed point of
rounding; quantifications over "every float64" range over these. -/
def F64.isRepresentable : F64 → Bool
  | .fin q => decide (roundQ q = .fin q)
  | _ => true

/-- Two's-complement wraparound of Go `int64` arithmetic. -/
def wrap64 (n : Int) : Int := (n + 2 ^ 63) % 2 ^ 64 - 2 ^ 63

/-- Go conversion `int64(u)` of a `uint64` value: reinterpret mod `2^64`. -/
def int64ofUint64 (u : Nat) : Int := wrap64 (u : Int)

/-- Go conversion `int64(x)` of a `float64`: truncation toward zero;
NaN and out-of-range operands follow amd64 `cvttsd2si` and give `-2^63`
(the Go specification leaves those cases implementation-specific). -/
def cvtF64toInt64 : F64 → Int
  | .nan => -(2 ^ 63)
  | .inf _ => -(2 ^ 63)
  | .fin q =>
    if -(2 ^ 63) ≤ q.num.tdiv (q.den : Int) ∧ q.num.tdiv (q.den : Int) < 2 ^ 63 then
      q.num.tdiv (q.den : Int)
    else -(2 ^ 63)

/-- Go conversion `float64(n)` of an `int64` value. -/
def f64ofInt (n : Int) : F64 := roundQ (n : ℚ)

/-- Go conversion `float64(u)` of a `uint64` value. -/
def f64ofNat (u : Nat) : F64 := roundQ (u : ℚ)

/-- Go conversion `uint64(x)` of a `float64`, as lowered on amd64:
`if x < 2^63 then uint64(int64(x)) else uint64(int64(x - 2^63)) + 2^63`. -/
def cvtF64toUint64 (x : F64) : Nat :=
  if F64.lt x (.fin ((2 ^ 63 : ℕ) : ℚ)) then
    ((cvtF64toInt64 x) % (2 ^ 64 : Int)).toNat
  else
    ((cvtF64toInt64 (F64.sub x (.fin ((2 ^ 63 : ℕ) : ℚ))) + 2 ^ 63) % (2 ^ 64 : Int)).toNat

/-- Descriptor metadata handed to the external collection framework
(`prometheus.Desc`): fully-qualified name, help text, constant labels.
Modelled from the spec: the framework type is opaque pass-through metadata
(name, help text, constant labels); its code is outside this repository. -/
structure PromDesc where
  fqName : String
  help : String
  constLabels : List (String × String)
deriving DecidableEq

/-- Construction options (`prometheus.GaugeOpts` / `prometheus.CounterOpts`,
both aliases of `prometheus.Opts`).  Modelled from the spec: a namespace,
subsystem and metric name plus help text and constant label pairs. -/
structure Opts where
  Namespace : String
  Subsystem : String
  Name : String
  Help : String
  ConstLabels : List (String × String)
deriving DecidableEq

/-- The external framework's fully-qualified name builder
(`prometheus.BuildFQName`).  Modelled from the spec: joins the nonempty
components of namespace/subsystem/name with an underscore; empty name gives
the empty string. -/
def BuildFQName (namespc subsystem name : String) : String :=
  if name = "" then ""
  else
    String.intercalate "_"
      (((if namespc = "" then [] else [namespc]) ++
        (if subsystem = "" then [] else [subsystem])) ++ [name])

/-- The external framework's descriptor constructor (`prometheus.NewDesc`,
with the variable-label slot always nil in this package).  Modelled from the
spec: packages the fully-qualified name, help text and constant labels into
an immutable descriptor. -/
def NewDesc (fqName help : String) (constLabels : List (String × String)) : PromDesc :=
  { fqName := fqName, help := help, constLabels := constLabels }

/-- Wire-format counter record (`dto.Counter`): holds the reported value. -/
structure DtoCounter where
  value : Option F64
deriving DecidableEq

/-- Wire-format metric record (`dto.Metric`): the fields a metric write can
touch; only `counter` is written by this package. -/
structure DtoMetric where
  label : List (String × String)
  gauge : Option F64
  counter : Option DtoCounter
  timestampMs : Option Int
deriving DecidableEq

/-- `math.Pow10(n)` for the (non-negative) precision argument: `10^n`
rounded to binary64.  Exact for `n ≤ 22`, which covers every precision a
claim exercises; Go's table-based implementation may differ by an ulp for
larger `n`, and overflows to `+∞` past `10^308`. -/
def mathPow10 (n : Nat) : F64 :=
  if n ≤ 308 then roundQ ((10 ^ n : ℕ) : ℚ) else .inf false

/-- The fixed-precision gauge cell (`FixedPrecisionGauge`): `val` is the
atomically mutated `int64`, `prec` the `uint` scale factor computed at
construction, `desc` the pass-through descriptor. -/
structure FixedPrecisionGauge where
  val : Int
  prec : Nat
  desc : PromDesc
deriving DecidableEq

/-- `NewFixedPrecisionGauge`: builds the descriptor from the options and
sets the scale factor to `uint(math.Pow10(int(prec)))`; `val` starts 0. -/
def NewFixedPrecisionGauge (opts : Opts) (prec : Nat) : FixedPrecisionGauge :=
  { val := 0
    prec := cvtF64toUint64 (mathPow10 prec)
    desc := NewDesc (BuildFQName opts.Namespace opts.Subsystem opts.Name)
      opts.Help opts.ConstLabels }

/-- `Set`: atomically stores `int64(val) * int64(fpg.prec)`. -/
def FixedPrecisionGauge.Set (fpg : FixedPrecisionGauge) (v : F64) : FixedPrecisionGauge :=
  { fpg with val := wrap64 (cvtF64toInt64 v * int64ofUint64 fpg.prec) }

/-- The private `add`: fetch-adds `delta * int64(fpg.prec)` for an integer
`delta` (the fast path used by `Inc` and `Dec`). -/
def FixedPrecisionGauge.add (fpg : FixedPrecisionGauge) (delta : Int) : FixedPrecisionGauge :=
  { fpg with val := wrap64 (fpg.val + wrap64 (delta * int64ofUint64 fpg.prec)) }

/-- `Inc`: the integer fast path with `delta = 1`. -/
def FixedPrecisionGauge.Inc (fpg : FixedPrecisionGauge) : FixedPrecisionGauge :=
  fpg.add 1

/-- `Dec`: the integer fast path with `delta = -1`. -/
def FixedPrecisionGauge.Dec (fpg : FixedPrecisionGauge) : FixedPrecisionGauge :=
  fpg.add (-1)

/-- `Add`: fetch-adds `int64(delta * float64(fpg.prec))`. -/
def FixedPrecisionGauge.Add (fpg : FixedPrecisionGauge) (delta : F64) : FixedPrecisionGauge :=
  { fpg with val := wrap64 (fpg.val + cvtF64toInt64 (F64.mul delta (f64ofNat fpg.prec))) }

/-- `Sub`: `fpg.Add(val * -1)`. -/
def FixedPrecisionGauge.Sub (fpg : FixedPrecisionGauge) (v : F64) : FixedPrecisionGauge :=
  fpg.Add (F64.mul v (.fin (-1)))

/-- `Value`: atomically loads `val` and returns
`float64(val) / float64(prec)`. -/
def FixedPrecisionGauge.Value (fpg : FixedPrecisionGauge) : F64 :=
  F64.div (f64ofInt fpg.val) (f64ofNat fpg.prec)

/-- `Write`: computes `float64(load(val)) / float64(prec)`, stores it in a
fresh `dto.Counter` placed in `out.Counter`, and returns a nil error.  The
receiver performs only an atomic load, so the returned cell state is the
unchanged input state. -/
def FixedPrecisionGauge.Write (fpg : FixedPrecisionGauge) (out : DtoMetric) :
    FixedPrecisionGauge × Option String × DtoMetric :=
  (fpg, none,
    { out with counter := some { value := some (F64.div (f64ofInt fpg.val) (f64ofNat fpg.prec)) } })

/-- `SetToCurrentTime`: `fpg.Set(float64(time.Now().Unix()))`; the clock
reading is passed in as an explicit argument. -/
def FixedPrecisionGauge.SetToCurrentTime (fpg : FixedPrecisionGauge) (nowUnix : Int) :
    FixedPrecisionGauge :=
  fpg.Set (f64ofInt nowUnix)

/-- The monotonic counter (`FixedPrecisionCounter`): embeds a
`FixedPrecisionGauge` and adds no state of its own. -/
structure FixedPrecisionCounter where
  toFixedPrecisionGauge : FixedPrecisionGauge
deriving DecidableEq

/-- `NewFixedPrecisionCounter`: same construction as the gauge. -/
def NewFixedPrecisionCounter (opts : Opts) (prec : Nat) : FixedPrecisionCounter :=
  { toFixedPrecisionGauge :=
    { val := 0
      prec := cvtF64toUint64 (mathPow10 prec)
      desc := NewDesc (BuildFQName opts.Namespace opts.Subsystem opts.Name)
        opts.Help opts.ConstLabels } }

/-- The panic message of `FixedPrecisionCounter.Add` on a negative input. -/
def counterPanicMessage : String := "counter cannot decrease in value"

/-- `FixedPrecisionCounter.Add`: panics (modelled as `.error`) when
`v < 0`, otherwise delegates to the embedded gauge's `Add`. -/
def FixedPrecisionCounter.Add (fpc : FixedPrecisionCounter) (v : F64) :
    Except String FixedPrecisionCounter :=
  if F64.lt v (.fin 0) then .error counterPanicMessage
  else .ok { toFixedPrecisionGauge := fpc.toFixedPrecisionGauge.Add v }

/-- Promoted method `Set` (Go embedding promotes the gauge's exported
methods into `*FixedPrecisionCounter`'s method set). -/
def FixedPrecisionCounter.Set (fpc : FixedPrecisionCounter) (v : F64) : FixedPrecisionCounter :=
  { toFixedPrecisionGauge := fpc.toFixedPrecisionGauge.Set v }

/-- Promoted method `Inc`. -/
def FixedPrecisionCounter.Inc (fpc : FixedPrecisionCounter) : FixedPrecisionCounter :=
  { toFixedPrecisionGauge := fpc.toFixedPrecisionGauge.Inc }

/-- Promoted method `Dec`. -/
def FixedPrecisionCounter.Dec (fpc : FixedPrecisionCounter) : FixedPrecisionCounter :=
  { toFixedPrecisionGauge := fpc.toFixedPrecisionGauge.Dec }

/-- Promoted method `Sub`. -/
def FixedPrecisionCounter.Sub (fpc : FixedPrecisionCounter) (v : F64) : FixedPrecisionCounter :=
  { toFixedPrecisionGauge := fpc.toFixedPrecisionGauge.Sub v }

/-- Promoted method `SetToCurrentTime`. -/
def FixedPrecisionCounter.SetToCurrentTime (fpc : FixedPrecisionCounter) (nowUnix : Int) :
    FixedPrecisionCounter :=
  { toFixedPrecisionGauge := fpc.toFixedPrecisionGauge.SetToCurrentTime nowUnix }

/-- Promoted method `Value`. -/
def FixedPrecisionCounter.Value (fpc : FixedPrecisionCounter) : F64 :=
  fpc.toFixedPrecisionGauge.Value

/-- The sample options used by concrete instances (mirrors the package's
tests). -/
def sampleOpts : Opts :=
  { Namespace := ""
    Subsystem := ""
    Name := "test"
    Help := "test help"
    ConstLabels := [] }

/-- The method calls a caller can make through the `prometheus.Counter`
interface value returned by `NewCounter` (its only mutating methods are
`Inc` and `Add`). -/
inductive PromCounterCall where
  | inc : PromCounterCall
  | add : F64 → PromCounterCall

/-- One interface call against a counter; `Add` can panic. -/
def promCounterStep (c : FixedPrecisionCounter) : PromCounterCall → Except String FixedPrecisionCounter
  | .inc => .ok c.Inc
  | .add v => c.Add v

/-- A sequence of interface calls, stopping at the first panic. -/
def promCounterRun : List PromCounterCall → FixedPrecisionCounter → Except String FixedPrecisionCounter
  | [], c => .ok c
  | op :: ops, c =>
    match promCounterStep c op with
    | .ok c2 => promCounterRun ops c2
    | .error e => .error e

/-- Absence of overflow for one call: the scale factor fits in `int64`, the
argument of `Add` is a finite non-negative float, and generous headroom
keeps every intermediate quantity inside `int64`. -/
def promCounterCallSafe (c : FixedPrecisionCounter) : PromCounterCall → Bool
  | .inc =>
    decide (c.toFixedPrecisionGauge.prec < 2 ^ 63) &&
    decide (c.toFixedPrecisionGauge.val + (c.toFixedPrecisionGauge.prec : Int) < 2 ^ 63)
  | .add (.fin q) =>
    decide (0 ≤ q) &&
    decide (c.toFixedPrecisionGauge.prec < 2 ^ 63) &&
    decide (q * ((c.toFixedPrecisionGauge.prec : ℚ) + 1024) < 2 ^ 60) &&
    decide (c.toFixedPrecisionGauge.val < 2 ^ 60)
  | .add _ => false

/-- Absence of overflow along a whole call sequence. -/
def promCounterRunSafe : List PromCounterCall → FixedPrecisionCounter → Bool
  | [], _ => true
  | op :: ops, c =>
    promCounterCallSafe c op &&
    (match promCounterStep c op with
     | .ok c2 => promCounterRunSafe ops c2
     | .error _ => true)

/-- Folding `Inc` over a list of thread events (the per-event thread id is
irrelevant to the state change). -/
def incRun (ev : List ℕ) (g : FixedPrecisionGauge) : FixedPrecisionGauge :=
  ev.foldl (fun s _ => s.Inc) g

/-- The exported mutating methods in the method set of the concrete Go type
`*FixedPrecisionCounter`: Go method promotion places the embedded gauge's
`Set`, `Inc`, `Dec`, `Sub` and `SetToCurrentTime` in this set alongside the
counter's own `Add` (which shadows the gauge's `Add`). -/
inductive CounterMethodCall where
  | set : F64 → CounterMethodCall
  | inc : CounterMethodCall
  | dec : CounterMethodCall
  | add : F64 → CounterMethodCall
  | sub : F64 → CounterMethodCall
  | setToCurrentTime : Int → CounterMethodCall

/-- One call of an exported method of the concrete counter type. -/
def counterMethodStep (c : FixedPrecisionCounter) :
    CounterMethodCall → Except String FixedPrecisionCounter
  | .set v => .ok (c.Set v)
  | .inc => .ok c.Inc
  | .dec => .ok c.Dec
  | .add v => c.Add v
  | .sub v => .ok (c.Sub v)
  | .setToCurrentTime t => .ok (c.SetToCurrentTime t)

theorem wrap64_eq_self {n : Int} (h1 : -(2 ^ 63) ≤ n) (h2 : n < 2 ^ 63) : wrap64 n = n := by
  unfold wrap64
  omega

theorem wrap64_lb (n : Int) : -(2 ^ 63) ≤ wrap64 n := by
  unfold wrap64
  omega

theorem wrap64_ub (n : Int) : wrap64 n < 2 ^ 63 := by
  unfold wrap64
  omega

theorem wrap64_add_left (a b : Int) : wrap64 (wrap64 a + b) = wrap64 (a + b) := by
  unfold wrap64
  omega

theorem wrap64_idem (n : Int) : wrap64 (wrap64 n) = wrap64 n := by
  unfold wrap64
  omega

theorem rne_intCast (n : Int) : rne (n : ℚ) = n := by
  unfold rne
  norm_num

theorem rne_le (q : ℚ) : (rne q : ℚ) ≤ q + 1 := by
  unfold rne
  have hf := Int.floor_le q
  split
  · linarith
  split
  · push_cast
    linarith
  split
  · linarith
  · push_cast
    have : ¬ ((1:ℚ)/2 < q - (⌊q⌋ : ℚ)) := by assumption
    linarith

theorem rne_nonneg {q : ℚ} (h : 0 ≤ q) : 0 ≤ rne q := by
  unfold rne
  have hf : 0 ≤ ⌊q⌋ := Int.floor_nonneg.mpr h
  split
  · exact hf
  split
  · omega
  split
  · exact hf
  · omega

theorem qpow2_eq_zpow (s : Int) : qpow2 s = (2 : ℚ) ^ s := by
  rw [qpow2]
  split
  · next h =>
    push_cast
    rw [← zpow_natCast (2 : ℚ) s.toNat, Int.toNat_of_nonneg h]
  · next h =>
    push_cast
    rw [← zpow_natCast (2 : ℚ) (-s).toNat, Int.toNat_of_nonneg (by omega), ← zpow_neg, neg_neg]

theorem qpow2_pos (s : Int) : 0 < qpow2 s := by
  rw [qpow2_eq_zpow]
  positivity

theorem log2fuel_spec :
    ∀ (fuel n : ℕ), 1 ≤ n → n ≤ fuel →
      2 ^ log2fuel fuel n ≤ n ∧ n < 2 ^ (log2fuel fuel n + 1) := by
  intro fuel
  induction fuel with
  | zero => intro n h1 h2; omega
  | succ fuel ih =>
    intro n h1 h2
    unfold log2fuel
    split
    · next h =>
      have hrec := ih (n / 2) (by omega) (by omega)
      obtain ⟨hl, hr⟩ := hrec
      constructor
      · calc 2 ^ (log2fuel fuel (n / 2) + 1) = 2 * 2 ^ log2fuel fuel (n / 2) := by ring
        _ ≤ 2 * (n / 2) := by omega
        _ ≤ n := by omega
      · have : n / 2 + 1 ≤ 2 ^ (log2fuel fuel (n / 2) + 1) := hr
        calc n < 2 * (n / 2) + 2 := by omega
        _ ≤ 2 * 2 ^ (log2fuel fuel (n / 2) + 1) := by omega
        _ = 2 ^ (log2fuel fuel (n / 2) + 1 + 1) := by ring
    · next h =>
      have : n = 1 := by omega
      subst this
      norm_num

theorem nlog2_spec {n : ℕ} (h : 1 ≤ n) :
    2 ^ nlog2 n ≤ n ∧ n < 2 ^ (nlog2 n + 1) :=
  log2fuel_spec n n h le_rfl

theorem qpow2_sub_natCast (a b : ℕ) :
    qpow2 ((a : ℤ) - (b : ℤ)) = ((2 ^ a : ℕ) : ℚ) / ((2 ^ b : ℕ) : ℚ) := by
  rw [qpow2_eq_zpow, zpow_sub₀ (two_ne_zero), zpow_natCast, zpow_natCast]
  push_cast
  ring

theorem qlog2_spec {q : ℚ} (h : 0 < q) :
    qpow2 (qlog2 q) ≤ q ∧ q < qpow2 (qlog2 q + 1) := by
  have hnum : 0 < q.num := Rat.num_pos.mpr h
  have hn1 : 1 ≤ q.num.natAbs := by omega
  have hd1 : 1 ≤ q.den := q.den_pos
  obtain ⟨ha1, ha2⟩ := nlog2_spec hn1
  obtain ⟨hb1, hb2⟩ := nlog2_spec hd1
  set a := nlog2 q.num.natAbs with haDef
  set b := nlog2 q.den with hbDef
  have hqd : ((q.num.natAbs : ℕ) : ℚ) / ((q.den : ℕ) : ℚ) = q := by
    have hcast : ((q.num.natAbs : ℕ) : ℚ) = ((q.num : ℤ) : ℚ) := by
      rw [Int.cast_natAbs]
      exact_mod_cast abs_of_nonneg hnum.le
    rw [hcast]
    exact Rat.num_div_den q
  have hdpos : (0 : ℚ) < ((q.den : ℕ) : ℚ) := by exact_mod_cast hd1
  have hp2 : ∀ k : ℕ, (0 : ℚ) < ((2 ^ k : ℕ) : ℚ) := by
    intro k
    exact_mod_cast pow_pos (by norm_num : (0:ℕ) < 2) k
  unfold qlog2
  split
  · next hif =>
    refine ⟨hif, ?_⟩
    have hexp : (a : ℤ) - (b : ℤ) + 1 = ((a + 1 : ℕ) : ℤ) - (b : ℤ) := by push_cast; ring
    rw [hexp, qpow2_sub_natCast]
    rw [← hqd]
    rw [div_lt_div_iff₀ hdpos (hp2 b)]
    have hnat : q.num.natAbs * 2 ^ b < 2 ^ (a + 1) * q.den := by
      calc q.num.natAbs * 2 ^ b < 2 ^ (a + 1) * 2 ^ b :=
            mul_lt_mul_of_pos_right ha2 (pow_pos (by norm_num) b)
      _ ≤ 2 ^ (a + 1) * q.den := mul_le_mul_of_nonneg_left hb1 (Nat.zero_le _)
    exact_mod_cast hnat
  · next hif =>
    push_neg at hif
    constructor
    · have hexp : (a : ℤ) - (b : ℤ) - 1 = ((a : ℕ) : ℤ) - ((b + 1 : ℕ) : ℤ) := by push_cast; ring
      rw [hexp, qpow2_sub_natCast]
      rw [← hqd]
      rw [div_le_div_iff₀ (hp2 (b + 1)) hdpos]
      have hnat : 2 ^ a * q.den < q.num.natAbs * 2 ^ (b + 1) := by
        calc 2 ^ a * q.den < 2 ^ a * 2 ^ (b + 1) :=
              mul_lt_mul_of_pos_left hb2 (pow_pos (by norm_num) a)
        _ ≤ q.num.natAbs * 2 ^ (b + 1) := mul_le_mul_of_nonneg_right ha1 (Nat.zero_le _)
      exact_mod_cast hnat.le
    · have hexp : (a : ℤ) - (b : ℤ) - 1 + 1 = (a : ℤ) - (b : ℤ) := by ring
      rw [hexp]
      exact hif

theorem qpow2_le_qpow2 {s t : Int} (h : s ≤ t) : qpow2 s ≤ qpow2 t := by
  rw [qpow2_eq_zpow, qpow2_eq_zpow]
  exact zpow_le_zpow_right₀ one_le_two h

theorem qpow2_add (s t : Int) : qpow2 (s + t) = qpow2 s * qpow2 t := by
  rw [qpow2_eq_zpow, qpow2_eq_zpow, qpow2_eq_zpow]
  exact zpow_add₀ two_ne_zero s t

theorem qpow2_ofNat (t : ℕ) : qpow2 (t : ℤ) = ((2 ^ t : ℕ) : ℚ) := by
  rw [qpow2_eq_zpow, zpow_natCast]
  push_cast
  ring

theorem qpow2_nonneg (s : Int) : 0 ≤ qpow2 s := (qpow2_pos s).le

theorem F64.neg_neg (x : F64) : x.neg.neg = x := by
  cases x <;> simp [F64.neg]

theorem roundQ_neg (q : ℚ) : roundQ (-q) = (roundQ q).neg := by
  unfold roundQ
  rcases lt_trichotomy q 0 with h | h | h
  · rw [if_pos (by linarith : (0:ℚ) < -q), if_neg (by linarith : ¬ (0:ℚ) < q), if_pos h,
      F64.neg_neg]
  · subst h
    norm_num [F64.neg]
  · rw [if_neg (by linarith : ¬ (0:ℚ) < -q), if_pos h,
      if_pos (by linarith : -q < (0:ℚ)), neg_neg]

theorem qpow2_natCast (t : ℕ) : qpow2 (t : ℤ) = (2 : ℚ) ^ t := by
  rw [qpow2_eq_zpow, zpow_natCast]

theorem roundPos_intCast_exact {k : Int} (h1 : 0 < k) (h2 : k ≤ 2 ^ 53) :
    roundPos (k : ℚ) = .fin (k : ℚ) := by
  have hq : (0 : ℚ) < (k : ℚ) := by exact_mod_cast h1
  obtain ⟨hel, her⟩ := qlog2_spec hq
  set e := qlog2 (k : ℚ) with he
  have he0 : 0 ≤ e := by
    by_contra hneg
    push_neg at hneg
    have hmono : qpow2 (e + 1) ≤ qpow2 0 := qpow2_le_qpow2 (by omega)
    have h0 : qpow2 0 = 1 := by norm_num [qpow2]
    have hk1 : (k : ℚ) < 1 := lt_of_lt_of_le her (h0 ▸ hmono)
    have : k < 1 := by exact_mod_cast hk1
    omega
  have he53 : e ≤ 53 := by
    by_contra hgt
    push_neg at hgt
    have h54 : qpow2 ((54 : ℕ) : ℤ) ≤ qpow2 e := qpow2_le_qpow2 (by omega)
    rw [qpow2_natCast] at h54
    have hk54 : (2 : ℚ) ^ (54 : ℕ) ≤ (k : ℚ) := le_trans h54 hel
    have : (2 ^ 54 : ℤ) ≤ k := by exact_mod_cast hk54
    omega
  have hscale : roundScale (k : ℚ) = e - 52 := by
    unfold roundScale
    rw [← he]
    omega
  rcases le_or_lt e 52 with hle | h53
  · -- the scaled value is an integer, so round-to-nearest is exact
    set t : ℕ := (52 - e).toNat with htdef
    have htz : (t : ℤ) = 52 - e := Int.toNat_of_nonneg (by omega)
    have hprod : (2 : ℚ) ^ t * qpow2 (e - 52) = 1 := by
      rw [← qpow2_natCast, ← qpow2_add, htz]
      norm_num [qpow2]
    have hdiv : (k : ℚ) / qpow2 (e - 52) = ((k * 2 ^ t : ℤ) : ℚ) := by
      rw [div_eq_iff (ne_of_gt (qpow2_pos (e - 52)))]
      push_cast
      rw [mul_assoc, hprod, mul_one]
    have hval : ((k * 2 ^ t : ℤ) : ℚ) * qpow2 (e - 52) = (k : ℚ) := by
      rw [← hdiv, div_mul_cancel₀]
      exact ne_of_gt (qpow2_pos (e - 52))
    unfold roundPos roundSig
    rw [hscale, hdiv, rne_intCast, hval, if_neg]
    push_neg
    calc (k : ℚ) ≤ ((2 ^ 53 : ℤ) : ℚ) := by exact_mod_cast h2
    _ < qpow2 1024 := by decide
  · -- e = 53 forces k = 2^53, a concrete value
    have he' : e = 53 := by omega
    have hk : k = 2 ^ 53 := by
      have h53' : qpow2 ((53 : ℕ) : ℤ) ≤ (k : ℚ) := by
        rw [show ((53 : ℕ) : ℤ) = e by omega]
        exact hel
      rw [qpow2_natCast] at h53'
      have : (2 ^ 53 : ℤ) ≤ k := by exact_mod_cast h53'
      omega
    rw [hk]
    decide

theorem roundQ_intCast_exact {k : Int} (h : k.natAbs ≤ 2 ^ 53) :
    roundQ (k : ℚ) = .fin (k : ℚ) := by
  rcases lt_trichotomy k 0 with hneg | hz | hpos
  · have hpos' : 0 < -k := by omega
    have hcast : (0:ℚ) < ((-k : ℤ) : ℚ) := by exact_mod_cast hpos'
    have hrq : roundQ ((-k : ℤ) : ℚ) = .fin ((-k : ℤ) : ℚ) := by
      unfold roundQ
      rw [if_pos hcast]
      exact roundPos_intCast_exact hpos' (by omega)
    have h1 : (k : ℚ) = -(((-k : ℤ)) : ℚ) := by push_cast; ring
    rw [h1, roundQ_neg, hrq]
    show F64.fin (-(((-k : ℤ)) : ℚ)) = F64.fin (-(((-k : ℤ)) : ℚ))
    rfl
  · subst hz
    norm_num [roundQ]
  · unfold roundQ
    rw [if_pos (by exact_mod_cast hpos : (0:ℚ) < (k:ℚ))]
    exact roundPos_intCast_exact hpos (by omega)

theorem roundQ_nonneg_bound {x : ℚ} (h0 : 0 ≤ x) (hub : x < ((2 ^ 63 : ℕ) : ℚ)) :
    ∃ v : ℚ, roundQ x = .fin v ∧ 0 ≤ v ∧ v ≤ x + 1024 := by
  rcases eq_or_lt_of_le h0 with hz | hpos
  · refine ⟨0, ?_, le_refl 0, by linarith⟩
    rw [← hz]
    norm_num [roundQ]
  · obtain ⟨hel, her⟩ := qlog2_spec hpos
    set e := qlog2 x with he
    have hc63 : ((2 ^ 63 : ℕ) : ℚ) = (2 : ℚ) ^ (63 : ℕ) := by push_cast; ring
    have he62 : e ≤ 62 := by
      by_contra hgt
      push_neg at hgt
      have h63 : qpow2 ((63 : ℕ) : ℤ) ≤ qpow2 e := qpow2_le_qpow2 (by omega)
      rw [qpow2_natCast] at h63
      have : ((2 ^ 63 : ℕ) : ℚ) ≤ x := le_trans (hc63 ▸ h63) hel
      linarith
    have hsle : roundScale x ≤ 10 := by
      unfold roundScale
      rw [← he]
      omega
    have hmn : 0 ≤ roundSig x := by
      unfold roundSig
      exact rne_nonneg (div_nonneg h0 (qpow2_nonneg _))
    have hmle : ((roundSig x : ℤ) : ℚ) ≤ x / qpow2 (roundScale x) + 1 := by
      unfold roundSig
      exact rne_le _
    have hv : ((roundSig x : ℤ) : ℚ) * qpow2 (roundScale x) ≤ x + qpow2 (roundScale x) := by
      calc ((roundSig x : ℤ) : ℚ) * qpow2 (roundScale x)
          ≤ (x / qpow2 (roundScale x) + 1) * qpow2 (roundScale x) :=
            mul_le_mul_of_nonneg_right hmle (qpow2_nonneg _)
      _ = x + qpow2 (roundScale x) := by
            rw [add_mul, one_mul, div_mul_cancel₀ _ (ne_of_gt (qpow2_pos _))]
    have hq10 : qpow2 (roundScale x) ≤ 1024 := by
      have hmono := qpow2_le_qpow2 hsle
      have h10 : qpow2 10 = 1024 := by decide
      linarith
    have hvb : ((roundSig x : ℤ) : ℚ) * qpow2 (roundScale x) ≤ x + 1024 := by linarith
    have hv0 : 0 ≤ ((roundSig x : ℤ) : ℚ) * qpow2 (roundScale x) :=
      mul_nonneg (by exact_mod_cast hmn) (qpow2_nonneg _)
    refine ⟨((roundSig x : ℤ) : ℚ) * qpow2 (roundScale x), ?_, hv0, hvb⟩
    unfold roundQ
    rw [if_pos hpos]
    unfold roundPos
    rw [if_neg]
    push_neg
    have hbig : ((2 ^ 63 : ℕ) : ℚ) + 1024 ≤ qpow2 1024 := by decide
    linarith

theorem cvt_fin_of_range {v : ℚ} (h0 : 0 ≤ v) (hub : v < ((2 ^ 63 : ℕ) : ℚ)) :
    cvtF64toInt64 (.fin v) = ⌊v⌋ ∧ 0 ≤ ⌊v⌋ ∧ ((⌊v⌋ : ℤ) : ℚ) ≤ v := by
  have hnum : 0 ≤ v.num := Rat.num_nonneg.mpr h0
  have htd : v.num.tdiv (v.den : ℤ) = v.num / (v.den : ℤ) :=
    Int.tdiv_eq_ediv hnum (by positivity)
  have hfl : ⌊v⌋ = v.num / (v.den : ℤ) := Rat.floor_def
  have hfl0 : 0 ≤ ⌊v⌋ := Int.floor_nonneg.mpr h0
  have hflle : ((⌊v⌋ : ℤ) : ℚ) ≤ v := Int.floor_le v
  have hflub : ⌊v⌋ < 2 ^ 63 := by
    have hlt : ((⌊v⌋ : ℤ) : ℚ) < ((2 ^ 63 : ℕ) : ℚ) := lt_of_le_of_lt hflle hub
    exact_mod_cast hlt
  refine ⟨?_, hfl0, hflle⟩
  simp only [cvtF64toInt64]
  rw [htd, ← hfl, if_pos ⟨by omega, hflub⟩]

theorem promCounterStep_mono {c c2 : FixedPrecisionCounter} {op : PromCounterCall}
    (hsafe : promCounterCallSafe c op = true)
    (hlb : -(2 ^ 63) ≤ c.toFixedPrecisionGauge.val)
    (hok : promCounterStep c op = .ok c2) :
    c.toFixedPrecisionGauge.val ≤ c2.toFixedPrecisionGauge.val := by
  cases op with
  | inc =>
    simp only [promCounterStep, Except.ok.injEq] at hok
    subst hok
    simp only [promCounterCallSafe, Bool.and_eq_true, decide_eq_true_eq] at hsafe
    obtain ⟨hprec, hsum⟩ := hsafe
    have hp0 : (0 : ℤ) ≤ (c.toFixedPrecisionGauge.prec : ℤ) := Int.natCast_nonneg _
    have hpint : ((c.toFixedPrecisionGauge.prec : ℕ) : ℤ) < 2 ^ 63 := by exact_mod_cast hprec
    show c.toFixedPrecisionGauge.val ≤ (FixedPrecisionCounter.Inc c).toFixedPrecisionGauge.val
    simp only [FixedPrecisionCounter.Inc, FixedPrecisionGauge.Inc, FixedPrecisionGauge.add]
    rw [one_mul]
    unfold int64ofUint64
    rw [wrap64_idem, wrap64_eq_self (by omega) hpint, wrap64_eq_self (by omega) (by omega)]
    omega
  | add v =>
    cases v with
    | nan => simp [promCounterCallSafe] at hsafe
    | inf b => simp [promCounterCallSafe] at hsafe
    | fin q =>
      simp only [promCounterCallSafe, Bool.and_eq_true, decide_eq_true_eq] at hsafe
      obtain ⟨⟨⟨hq0, hprec⟩, hqb⟩, hvb⟩ := hsafe
      have hguard : F64.lt (.fin q) (.fin 0) = false := by
        simp only [F64.lt, decide_eq_false_iff_not, not_lt]
        exact hq0
      simp only [promCounterStep, FixedPrecisionCounter.Add, hguard, Bool.false_eq_true,
        if_false, Except.ok.injEq] at hok
      subst hok
      have hprecQ : (0 : ℚ) ≤ ((c.toFixedPrecisionGauge.prec : ℕ) : ℚ) := by positivity
      have hprecQub : ((c.toFixedPrecisionGauge.prec : ℕ) : ℚ) < ((2 ^ 63 : ℕ) : ℚ) := by
        exact_mod_cast hprec
      obtain ⟨pr, hpr_eq, hpr0, hpr_le⟩ := roundQ_nonneg_bound hprecQ hprecQub
      have h60_63 : (2 ^ 60 : ℚ) + 1024 + 1024 < ((2 ^ 63 : ℕ) : ℚ) := by
        push_cast
        norm_num
      have hx0 : 0 ≤ q * pr := mul_nonneg hq0 hpr0
      have hxle : q * pr ≤ q * (((c.toFixedPrecisionGauge.prec : ℕ) : ℚ) + 1024) :=
        mul_le_mul_of_nonneg_left (by linarith) hq0
      have hxub : q * pr < ((2 ^ 63 : ℕ) : ℚ) := by linarith
      obtain ⟨v2, hv2_eq, hv20, hv2le⟩ := roundQ_nonneg_bound hx0 hxub
      have hv2ub : v2 < ((2 ^ 63 : ℕ) : ℚ) := by linarith
      obtain ⟨hcvt, hd0, hdle⟩ := cvt_fin_of_range hv20 hv2ub
      have hdubQ : ((⌊v2⌋ : ℤ) : ℚ) < ((2 ^ 60 + 2048 : ℤ) : ℚ) := by push_cast; linarith
      have hdub : ⌊v2⌋ < 2 ^ 60 + 2048 := by exact_mod_cast hdubQ
      have hmul : F64.mul (.fin q) (f64ofNat c.toFixedPrecisionGauge.prec) = roundQ (q * pr) := by
        unfold f64ofNat
        rw [hpr_eq]
        rfl
      show c.toFixedPrecisionGauge.val ≤
        (c.toFixedPrecisionGauge.Add (.fin q)).val
      simp only [FixedPrecisionGauge.Add]
      rw [hmul, hv2_eq, hcvt, wrap64_eq_self (by omega) (by omega)]
      omega

theorem incRun_prec : ∀ (ev : List ℕ) (g : FixedPrecisionGauge), (incRun ev g).prec = g.prec := by
  intro ev
  induction ev with
  | nil => intro g; rfl
  | cons e ev ih =>
    intro g
    show (incRun ev g.Inc).prec = g.prec
    rw [ih]
    rfl

theorem incRun_val :
    ∀ (ev : List ℕ) (g : FixedPrecisionGauge), -(2 ^ 63) ≤ g.val → g.val < 2 ^ 63 →
      (incRun ev g).val = wrap64 (g.val + ev.length * int64ofUint64 g.prec) := by
  intro ev
  induction ev with
  | nil =>
    intro g h1 h2
    show g.val = wrap64 (g.val + 0 * int64ofUint64 g.prec)
    rw [zero_mul, add_zero, wrap64_eq_self h1 h2]
  | cons e ev ih =>
    intro g h1 h2
    have hinc : g.Inc.val = wrap64 (g.val + int64ofUint64 g.prec) := by
      simp only [FixedPrecisionGauge.Inc, FixedPrecisionGauge.add]
      rw [one_mul]
      unfold int64ofUint64
      rw [wrap64_idem]
    have hstep := ih g.Inc (wrap64_lb _) (wrap64_ub _)
    show (incRun ev g.Inc).val = wrap64 (g.val + (↑ev.length + 1) * int64ofUint64 g.prec)
    rw [hstep, hinc]
    show wrap64 (wrap64 (g.val + int64ofUint64 g.prec) + ev.length * int64ofUint64 g.Inc.prec) = _
    have hprec : g.Inc.prec = g.prec := rfl
    rw [hprec, wrap64_add_left]
    congr 1
    ring

theorem length_of_counts {N M : ℕ} {ev : List ℕ}
    (hmem : ∀ t ∈ ev, t < N) (hcount : ∀ t, t < N → ev.count t = M) :
    ev.length = N * M := by
  have hsub : ev.toFinset ⊆ Finset.range N := by
    intro t ht
    rw [List.mem_toFinset] at ht
    exact Finset.mem_range.mpr (hmem t ht)
  have h1 : ∑ t ∈ ev.toFinset, ev.count t = ev.length := by
    classical
    have h := Multiset.toFinset_sum_count_eq (ev : Multiset ℕ)
    simp only [Multiset.coe_count, Multiset.coe_card] at h
    convert h using 2
  have h2 : ∑ t ∈ Finset.range N, ev.count t = ∑ t ∈ ev.toFinset, ev.count t := by
    symm
    apply Finset.sum_subset hsub
    intro t _ ht
    rw [List.mem_toFinset] at ht
    exact List.count_eq_zero_of_not_mem ht
  have h3 : ∑ t ∈ Finset.range N, ev.count t = ∑ _t ∈ Finset.range N, M :=
    Finset.sum_congr rfl (fun t ht => hcount t (Finset.mem_range.mp ht))
  rw [h3] at h2
  rw [← h1, ← h2]
  simp [Finset.sum_const, Finset.card_range, Nat.mul_comm]

/-- For scale factors up to `10^18` the integer fast-path delta of
`Inc`/`Dec` coincides with the float-path delta of `Add(±1)`. -/
theorem fastPathDelta (p : ℕ) (hp : p ≤ 18) :
    cvtF64toInt64 (F64.mul (.fin 1) (f64ofNat (10 ^ p))) = wrap64 (1 * int64ofUint64 (10 ^ p)) ∧
    cvtF64toInt64 (F64.mul (.fin (-1)) (f64ofNat (10 ^ p))) = wrap64 ((-1) * int64ofUint64 (10 ^ p)) := by
  interval_cases p <;> exact ⟨by decide, by decide⟩

theorem roundQ_natCast_exact {n : ℕ} (h : n ≤ 2 ^ 53) :
    roundQ ((n : ℕ) : ℚ) = .fin ((n : ℕ) : ℚ) := by
  have hk := roundQ_intCast_exact (k := ((n : ℕ) : ℤ)) (by rw [Int.natAbs_ofNat]; exact h)
  rw [Int.cast_natCast] at hk
  exact hk

theorem F64.nan_mul (y : F64) : F64.mul .nan y = .nan := by
  cases y <;> rfl

theorem fmul_negOne (v : F64) (h : v.isRepresentable = true) :
    F64.mul v (.fin (-1)) = v.neg := by
  cases v with
  | nan => rfl
  | inf b => cases b <;> decide
  | fin q =>
    simp only [F64.isRepresentable, decide_eq_true_eq] at h
    have hmn : q * (-1) = -q := by ring
    show roundQ (q * (-1)) = (F64.fin q).neg
    rw [hmn, roundQ_neg, h]

/-- Claim C1 (amended): Go embedding promotes the gauge's `Set`, `Inc`,
`Dec`, `Sub` into `*FixedPrecisionCounter`'s public method set, so the
concrete type's capability set is NOT narrower than the gauge's and
monotonicity fails through it (see the counterexample).  What holds is the
interface-level statement: along any sequence of calls through the
`prometheus.Counter` interface returned by `NewCounter` (whose only
mutators are `Inc` and the guarded `Add`) that stays clear of `int64`
overflow and float-conversion overflow (`promCounterRunSafe`), the stored
`rawValue` — and hence the observed `Value()` — never decreases. -/
theorem claim_C1 :
    ∀ (ops : List PromCounterCall) (c c2 : FixedPrecisionCounter),
      promCounterRunSafe ops c = true →
      -(2 ^ 63) ≤ c.toFixedPrecisionGauge.val →
      promCounterRun ops c = .ok c2 →
      c.toFixedPrecisionGauge.val ≤ c2.toFixedPrecisionGauge.val := by
  intro ops
  induction ops with
  | nil =>
    intro c c2 _ _ hrun
    simp only [promCounterRun, Except.ok.injEq] at hrun
    exact le_of_eq (congrArg (fun x => x.toFixedPrecisionGauge.val) hrun)
  | cons op ops ih =>
    intro c c2 hsafe hlb hrun
    simp only [promCounterRunSafe, Bool.and_eq_true] at hsafe
    obtain ⟨hs1, hs2⟩ := hsafe
    simp only [promCounterRun] at hrun
    cases hstep : promCounterStep c op with
    | error e =>
      rw [hstep] at hrun
      exact absurd hrun (by simp)
    | ok cmid =>
      rw [hstep] at hrun hs2
      have h1 := promCounterStep_mono hs1 hlb hstep
      exact le_trans h1 (ih cmid c2 hs2 (by omega) hrun)

/-- Claim C1, witness: a concrete overflow-free interface run (an `Inc`,
an `Add 2`, an `Inc`) on a fresh precision-0 counter, with every
hypothesis discharged by evaluation. -/
theorem claim_C1_witness :
    (NewFixedPrecisionCounter sampleOpts 0).toFixedPrecisionGauge.val ≤
      (FixedPrecisionCounter.Inc
        ⟨(NewFixedPrecisionCounter sampleOpts 0).Inc.toFixedPrecisionGauge.Add
          (.fin 2)⟩).toFixedPrecisionGauge.val :=
  claim_C1 [.inc, .add (.fin 2), .inc]
    (NewFixedPrecisionCounter sampleOpts 0)
    (FixedPrecisionCounter.Inc
      ⟨(NewFixedPrecisionCounter sampleOpts 0).Inc.toFixedPrecisionGauge.Add (.fin 2)⟩)
    (by decide) (by decide) (by decide)

/-- Claim C1, counterexample: `Dec` IS in the concrete counter type's
public method set (promoted from the embedded gauge), it succeeds without
any guard, and it strictly decreases the observed `Value()` of a fresh
counter — so the claim as stated (capability set strictly narrower, value
monotone under every public-interface call sequence) is false. -/
theorem claim_C1_counterexample :
    counterMethodStep (NewFixedPrecisionCounter sampleOpts 0) .dec =
      .ok (NewFixedPrecisionCounter sampleOpts 0).Dec ∧
    F64.lt (NewFixedPrecisionCounter sampleOpts 0).Dec.Value
      (NewFixedPrecisionCounter sampleOpts 0).Value = true :=
  ⟨rfl, by decide⟩

/-- Claim C2: for every `v < 0` (by float comparison), `Add` on a counter
panics with the fixed message before any state mutation — in this model
the call returns `.error` and no successor state exists, so the stored
`rawValue` is untouched; for every `v` with `v < 0` false (including NaN),
it delegates to the embedded gauge's `Add`. -/
theorem claim_C2 (v : F64) (c : FixedPrecisionCounter) :
    (F64.lt v (.fin 0) = true → c.Add v = .error counterPanicMessage) ∧
    (F64.lt v (.fin 0) = false →
      c.Add v = .ok ⟨c.toFixedPrecisionGauge.Add v⟩) := by
  constructor
  · intro h
    unfold FixedPrecisionCounter.Add
    rw [if_pos h]
  · intro h
    unfold FixedPrecisionCounter.Add
    rw [if_neg (by simp [h])]

/-- Claim C2, witness: `Add (-1)` on a fresh precision-3 counter panics. -/
theorem claim_C2_witness :
    (NewFixedPrecisionCounter sampleOpts 3).Add (.fin (-1)) = .error counterPanicMessage :=
  (claim_C2 (.fin (-1)) (NewFixedPrecisionCounter sampleOpts 3)).1 (by decide)

/-- Claim C3: `Set v` stores `int64(v) * int64(prec)` (truncation of the
argument to an integer happens BEFORE scaling, with `int64` wraparound
semantics on the product), and concretely `Set 0.5` on a precision-3 cell
yields `Value() = 0`, not `0.5`. -/
theorem claim_C3 :
    (∀ (v : F64) (s : FixedPrecisionGauge),
      s.Set v = { s with val := wrap64 (cvtF64toInt64 v * int64ofUint64 s.prec) }) ∧
    ((NewFixedPrecisionGauge sampleOpts 3).Set (.fin (1/2))).Value = .fin 0 :=
  ⟨fun _ _ => rfl, by decide⟩

/-- Claim C4: `Add delta` fetch-adds exactly
`int64(delta * float64(prec))` into `rawValue` (scaling before truncation,
with two's-complement wraparound), leaves `prec` and the descriptor
unchanged, and when the sum stays inside `int64` the new `rawValue` is
exactly the old one plus that quantity. -/
theorem claim_C4 (delta : F64) (s : FixedPrecisionGauge) :
    (s.Add delta).val =
      wrap64 (s.val + cvtF64toInt64 (F64.mul delta (f64ofNat s.prec))) ∧
    (s.Add delta).prec = s.prec ∧
    (s.Add delta).desc = s.desc ∧
    (-(2 ^ 63) ≤ s.val + cvtF64toInt64 (F64.mul delta (f64ofNat s.prec)) →
      s.val + cvtF64toInt64 (F64.mul delta (f64ofNat s.prec)) < 2 ^ 63 →
      (s.Add delta).val = s.val + cvtF64toInt64 (F64.mul delta (f64ofNat s.prec))) :=
  ⟨rfl, rfl, rfl, fun h1 h2 => wrap64_eq_self h1 h2⟩

/-- Claim C4, witness: `Add 1` on a fresh precision-0 cell, with the
no-overflow hypotheses discharged by evaluation. -/
theorem claim_C4_witness :
    ((NewFixedPrecisionGauge sampleOpts 0).Add (.fin 1)).val =
      (NewFixedPrecisionGauge sampleOpts 0).val +
        cvtF64toInt64 (F64.mul (.fin 1) (f64ofNat (NewFixedPrecisionGauge sampleOpts 0).prec)) :=
  (claim_C4 (.fin 1) (NewFixedPrecisionGauge sampleOpts 0)).2.2.2 (by decide) (by decide)

/-- Claim C5 (amended): on every cell whose scale factor is `10^p` with
`p ≤ 18` — every cell the constructors produce with precision up to 18 —
`Inc` has exactly the effect of `Add 1.0` and `Dec` exactly that of
`Add (-1.0)`.  At precision 19 the two paths differ (see the
counterexample): the integer path wraps `uint64(10^19)` to a negative
`int64`, while the float path's conversion of `1e19` overflows `int64`
(implementation-specific in Go; `-2^63` on amd64, `2^63 - 1` on arm64 —
distinct from the integer path's result either way). -/
theorem claim_C5 (p : ℕ) (hp : p ≤ 18) (s : FixedPrecisionGauge)
    (hs : s.prec = 10 ^ p) :
    s.Inc = s.Add (.fin 1) ∧ s.Dec = s.Add (.fin (-1)) := by
  obtain ⟨h1, h2⟩ := fastPathDelta p hp
  constructor
  · unfold FixedPrecisionGauge.Inc FixedPrecisionGauge.add FixedPrecisionGauge.Add
    rw [hs, h1]
  · unfold FixedPrecisionGauge.Dec FixedPrecisionGauge.add FixedPrecisionGauge.Add
    rw [hs, h2]

/-- Claim C5, witness: the equivalence at precision 3, hypotheses
discharged by evaluation. -/
theorem claim_C5_witness :
    (NewFixedPrecisionGauge sampleOpts 3).Inc =
      (NewFixedPrecisionGauge sampleOpts 3).Add (.fin 1) ∧
    (NewFixedPrecisionGauge sampleOpts 3).Dec =
      (NewFixedPrecisionGauge sampleOpts 3).Add (.fin (-1)) :=
  claim_C5 3 (by decide) (NewFixedPrecisionGauge sampleOpts 3) (by decide)

/-- Claim C5, counterexample: on the constructible precision-19 cell the
integer fast path (`Inc`) and the float path (`Add 1.0`) produce different
states — the claim quantified over every cell state is false.  (The float
path follows the amd64 out-of-range conversion; on any implementation it
lands in `int64` and so cannot equal the integer path's
`10^19 - 2^64 = -8446744073709551616` shifted value, which differs from
both `-2^63` and `2^63 - 1`.) -/
theorem claim_C5_counterexample :
    (NewFixedPrecisionGauge sampleOpts 19).Inc ≠
      (NewFixedPrecisionGauge sampleOpts 19).Add (.fin 1) := by
  decide

/-- Claim C6: for every representable float64 `v` and every cell state,
`Sub v` has exactly the effect of `Add (-v)`: the implementation computes
`v * (-1)`, and binary64 multiplication by `-1` is exact negation (also on
NaN and the infinities). -/
theorem claim_C6 (v : F64) (s : FixedPrecisionGauge)
    (h : v.isRepresentable = true) :
    s.Sub v = s.Add v.neg := by
  unfold FixedPrecisionGauge.Sub
  rw [fmul_negOne v h]

/-- Claim C6, witness: `Sub 2` equals `Add (-2)` on a fresh precision-3
cell. -/
theorem claim_C6_witness :
    (NewFixedPrecisionGauge sampleOpts 3).Sub (.fin 2) =
      (NewFixedPrecisionGauge sampleOpts 3).Add (F64.neg (.fin 2)) :=
  claim_C6 (.fin 2) (NewFixedPrecisionGauge sampleOpts 3) (by decide)

/-- Claim C7: the decimal literals `0.9999999999999999999` and
`2.9999999999999999999` round to the binary64 values `1.0` and `3.0`, and
on a fresh precision-0 cell `Inc` then `Add` of the first literal yields
`Value() = 2.0`, and a further `Sub` of the second yields
`Value() = -1.0`. -/
theorem claim_C7 :
    roundQ (0.9999999999999999999 : ℚ) = .fin 1 ∧
    roundQ (2.9999999999999999999 : ℚ) = .fin 3 ∧
    ((NewFixedPrecisionGauge sampleOpts 0).Inc.Add (.fin 1)).Value = .fin 2 ∧
    (((NewFixedPrecisionGauge sampleOpts 0).Inc.Add (.fin 1)).Sub (.fin 3)).Value =
      .fin (-1) :=
  ⟨by decide, by decide, by decide, by decide⟩

/-- Claim C8: `Write` is a side-effect-free read: it returns the unchanged
cell state (the receiver only performs an atomic load), a nil error, and a
metric record whose counter-value field holds exactly the `Value()` result,
all other fields of the output record being preserved. -/
theorem claim_C8 (s : FixedPrecisionGauge) (out : DtoMetric) :
    (s.Write out).1 = s ∧
    (s.Write out).2.1 = none ∧
    (s.Write out).2.2.counter = some { value := some s.Value } ∧
    (s.Write out).2.2.label = out.label ∧
    (s.Write out).2.2.gauge = out.gauge ∧
    (s.Write out).2.2.timestampMs = out.timestampMs :=
  ⟨rfl, rfl, rfl, rfl, rfl, rfl⟩

/-- Claim C9 (amended): under the atomic interleaving model — each `Inc`
is one atomic fetch-add, so a concurrent execution of `N` threads each
performing `M` increments is some event list in which each thread id below
`N` occurs exactly `M` times — every such execution on a fresh precision-0
cell ends with `Value() = N*M` exactly, PROVIDED `N*M ≤ 2^53` (so the
count neither wraps `int64` nor exceed exact `float64` range).  Without
that bound the claim is false by `int64` wraparound (see the
counterexample). -/
theorem claim_C9 (N M : ℕ) (ev : List ℕ) (opts : Opts)
    (_hN : 0 < N) (_hM : 0 < M) (hbound : N * M ≤ 2 ^ 53)
    (hmem : ∀ t ∈ ev, t < N) (hcount : ∀ t, t < N → ev.count t = M) :
    (incRun ev (NewFixedPrecisionGauge opts 0)).Value = .fin ((N * M : ℕ) : ℚ) := by
  have hlen : ev.length = N * M := length_of_counts hmem hcount
  have hprec : (NewFixedPrecisionGauge opts 0).prec = 1 := by
    show cvtF64toUint64 (mathPow10 0) = 1
    decide
  have hval0 : (NewFixedPrecisionGauge opts 0).val = 0 := rfl
  have hv := incRun_val ev (NewFixedPrecisionGauge opts 0)
    (by rw [hval0]; norm_num) (by rw [hval0]; norm_num)
  have hone : int64ofUint64 (1 : ℕ) = 1 := by decide
  have hcast : ((N * M : ℕ) : ℤ) ≤ 2 ^ 53 := by exact_mod_cast hbound
  have hvala : (incRun ev (NewFixedPrecisionGauge opts 0)).val = ((N * M : ℕ) : ℤ) := by
    rw [hv, hval0, hprec, hone, hlen, mul_one, zero_add]
    exact wrap64_eq_self (by omega) (by omega)
  have hprec2 : (incRun ev (NewFixedPrecisionGauge opts 0)).prec = 1 := by
    rw [incRun_prec, hprec]
  unfold FixedPrecisionGauge.Value f64ofInt f64ofNat
  rw [hvala, hprec2, Int.cast_natCast, roundQ_natCast_exact hbound, Nat.cast_one,
    (by decide : roundQ (1 : ℚ) = .fin 1)]
  have hdiv : F64.div (.fin ((N * M : ℕ) : ℚ)) (.fin 1) =
      roundQ (((N * M : ℕ) : ℚ) / 1) := rfl
  rw [hdiv, div_one, roundQ_natCast_exact hbound]

/-- Claim C9, witness: two threads, two increments each, interleaved
alternately; the final value is `4`. -/
theorem claim_C9_witness :
    (incRun [0, 1, 0, 1] (NewFixedPrecisionGauge sampleOpts 0)).Value =
      .fin ((2 * 2 : ℕ) : ℚ) :=
  claim_C9 2 2 [0, 1, 0, 1] sampleOpts (by decide) (by decide) (by decide)
    (by decide) (by decide)

/-- Claim C9, counterexample: one thread performing `2^63` increments — a
valid instance of the claim's "N threads, M increments" shape with
`N = 1`, `M = 2^63` — wraps the `int64` cell and ends with
`Value() = -2^63 ≠ 1 * 2^63`, so the claim without a bound on `N*M` is
false. -/
theorem claim_C9_counterexample :
    (∀ t ∈ List.replicate (2 ^ 63) 0, t < 1) ∧
    (∀ t, t < 1 → (List.replicate (2 ^ 63) 0).count t = 2 ^ 63) ∧
    (incRun (List.replicate (2 ^ 63) 0) (NewFixedPrecisionGauge sampleOpts 0)).Value ≠
      .fin ((1 * 2 ^ 63 : ℕ) : ℚ) := by
  refine ⟨?_, ?_, ?_⟩
  · intro t ht
    rw [List.eq_of_mem_replicate ht]
    norm_num
  · intro t ht
    have ht0 : t = 0 := by omega
    subst ht0
    rw [List.count_replicate]
    rfl
  · have hlen : (List.replicate (2 ^ 63) (0 : ℕ)).length = 2 ^ 63 :=
      List.length_replicate _ _
    have hprec : (NewFixedPrecisionGauge sampleOpts 0).prec = 1 := by decide
    have hval0 : (NewFixedPrecisionGauge sampleOpts 0).val = 0 := rfl
    have hv := incRun_val (List.replicate (2 ^ 63) 0) (NewFixedPrecisionGauge sampleOpts 0)
      (by rw [hval0]; norm_num) (by rw [hval0]; norm_num)
    have hvala : (incRun (List.replicate (2 ^ 63) 0)
        (NewFixedPrecisionGauge sampleOpts 0)).val = -(2 ^ 63) := by
      rw [hv, hval0, hprec, hlen]
      decide
    have hprec2 : (incRun (List.replicate (2 ^ 63) 0)
        (NewFixedPrecisionGauge sampleOpts 0)).prec = 1 := by
      rw [incRun_prec, hprec]
    unfold FixedPrecisionGauge.Value
    rw [hvala, hprec2]
    decide

/-- Claim C10: `Add NaN` on a counter does not trigger the monotonicity
panic (the guard `v < 0` is false for NaN) and delegates to the gauge's
`Add`, which mutates the stored `rawValue` — under the amd64 conversion
semantics the NaN converts to `-2^63`, and adding it always changes the
64-bit cell. -/
theorem claim_C10 (c : FixedPrecisionCounter) :
    c.Add .nan = .ok ⟨c.toFixedPrecisionGauge.Add .nan⟩ ∧
    (c.toFixedPrecisionGauge.Add .nan).val ≠ c.toFixedPrecisionGauge.val := by
  constructor
  · rfl
  · show wrap64 (c.toFixedPrecisionGauge.val +
      cvtF64toInt64 (F64.mul .nan (f64ofNat c.toFixedPrecisionGauge.prec))) ≠
      c.toFixedPrecisionGauge.val
    rw [F64.nan_mul]
    show wrap64 (c.toFixedPrecisionGauge.val + -(2 ^ 63)) ≠ c.toFixedPrecisionGauge.val
    unfold wrap64
    omega
